import Mathlib

/-!
Verification of the `strong-function` crate: a two-phase fallible operation
pattern.  The Rust trait `Invocation` (src/lib.rs) exposes a fallible,
read-only phase `may_fail`, an infallible consuming phase `commit`, and a
default method `execute` sequencing the two.  A tuple of two invocations with
the same error type is itself an invocation (the pairing combinator).

Two embeddings are used, both translated from the source:
* `StrongFunction.Invocation`: the pure model.  An invocation value carries
  its whole input inside its two phase functions (the Rust `self` is captured
  by the closures), exactly as the trait methods read it.
* `StrongFunction.TInvocation`: the same model instrumented with an event
  log.  Each phase returns, next to its value, the list of call events it
  performed; sequencing appends logs in call order, mirroring the sequential
  side effects of the Rust methods.  Claims about phases never being invoked,
  about call multiplicity and about call order are stated on the log.
-/

namespace StrongFunction

/-- Pure model of the Rust trait `Invocation` with associated types
`Error = ε`, `IntermediateState = σ`, `Output = ω`.  The held input of the
invocation is captured inside the two fields, as `self` is in Rust. -/
structure Invocation (ε σ ω : Type) where
  may_fail : Except ε σ
  commit : σ → ω

/-- The default method `execute`:
`let tmp = Self::may_fail(&self)?; let output = Self::commit(self, tmp); Ok(output)`. -/
def Invocation.execute (inv : Invocation ε σ ω) : Except ε ω :=
  match inv.may_fail with
  | .error e => .error e
  | .ok tmp => .ok (inv.commit tmp)

/-- The pairing combinator `impl<F1, F2> Invocation for (F1, F2)`:
`may_fail` is `Ok((self.0.may_fail()?, self.1.may_fail()?))` and
`commit` is `(self.0.commit(tmp.0), self.1.commit(tmp.1))`. -/
def Invocation.pair (f1 : Invocation ε σ1 ω1) (f2 : Invocation ε σ2 ω2) :
    Invocation ε (σ1 × σ2) (ω1 × ω2) where
  may_fail :=
    match f1.may_fail with
    | .error e => .error e
    | .ok s1 =>
      match f2.may_fail with
      | .error e => .error e
      | .ok s2 => .ok (s1, s2)
  commit := fun tmp => (f1.commit tmp.1, f2.commit tmp.2)

/-- The `DummyState` intermediate state of the `Constant` test invocation. -/
inductive DummyState : Type where
  | mk

/-- The test invocation `Constant`: always succeeds and commits to `42`. -/
def Constant : Invocation Unit DummyState Int where
  may_fail := .ok DummyState.mk
  commit := fun _ => 42

/-- The test invocation `Identity`: holds an owned argument `a` and passes it
through unchanged; `may_fail` is `Ok(())`, `commit` returns the held value. -/
def Identity (a : α) : Invocation Unit Unit α where
  may_fail := .ok ()
  commit := fun _ => a

/-- A call event of the instrumented model: entering `may_fail` or `commit`
of the constituent invocation labelled `i`. -/
inductive Event (ι : Type) : Type where
  | mayFailCall (i : ι)
  | commitCall (i : ι)
  deriving DecidableEq

/-- Instrumented model: each phase additionally yields the list of call
events it performed, in order. -/
structure TInvocation (ι ε σ ω : Type) where
  may_fail : Except ε σ × List (Event ι)
  commit : σ → ω × List (Event ι)

/-- Instrumented `execute`: the events of `may_fail` happen first; only when
it succeeds is `commit` entered, its events following.  On failure the match
on the first line returns the error before `commit` is reachable. -/
def TInvocation.execute (inv : TInvocation ι ε σ ω) :
    Except ε ω × List (Event ι) :=
  match inv.may_fail with
  | (.error e, tr) => (.error e, tr)
  | (.ok tmp, tr) =>
    let r := inv.commit tmp
    (.ok r.1, tr ++ r.2)

/-- Instrumented pairing combinator: `may_fail` runs the first element, and
only on its success the second (the `?` operator short-circuits); `commit`
unconditionally commits both elements, first then second. -/
def TInvocation.pair (f1 : TInvocation ι ε σ1 ω1) (f2 : TInvocation ι ε σ2 ω2) :
    TInvocation ι ε (σ1 × σ2) (ω1 × ω2) where
  may_fail :=
    match f1.may_fail with
    | (.error e, tr) => (.error e, tr)
    | (.ok s1, tr1) =>
      match f2.may_fail with
      | (.error e, tr2) => (.error e, tr1 ++ tr2)
      | (.ok s2, tr2) => (.ok (s1, s2), tr1 ++ tr2)
  commit := fun tmp =>
    let r1 := f1.commit tmp.1
    let r2 := f2.commit tmp.2
    ((r1.1, r2.1), r1.2 ++ r2.2)

/-- A leaf invocation labelled `i`: each phase logs exactly its own call. -/
def TInvocation.leaf (i : ι) (mf : Except ε σ) (cm : σ → ω) :
    TInvocation ι ε σ ω where
  may_fail := (mf, [Event.mayFailCall i])
  commit := fun s => (cm s, [Event.commitCall i])

/-- A tree of nested pairs of leaf invocations, as built by nesting the
tuple combinator, e.g. `(A, (B, C))` or `((A, B), C)`.  All leaves share the
types `ε`, `σ`, `ω`; each carries a distinct label `i` for the event log. -/
inductive Chain (ι ε σ ω : Type) : Type where
  | leaf (i : ι) (mf : Except ε σ) (cm : σ → ω)
  | node (l r : Chain ι ε σ ω)

/-- The labels of the leaves of a chain, in left-to-right order. -/
def Chain.labels : Chain ι ε σ ω → List ι
  | .leaf i _ _ => [i]
  | .node l r => l.labels ++ r.labels

/-- The intermediate-state type of a chain: the nested tuple of the leaf
state types, as the tuple instance associates them. -/
def Chain.St : Chain ι ε σ ω → Type
  | .leaf _ _ _ => σ
  | .node l r => l.St × r.St

/-- The output type of a chain: the nested tuple of the leaf output types. -/
def Chain.Out : Chain ι ε σ ω → Type
  | .leaf _ _ _ => ω
  | .node l r => l.Out × r.Out

/-- The invocation a chain denotes: leaves stand for themselves and every
node is the pairing combinator, so a chain is exactly a nested tuple of
invocations under `impl Invocation for (F1, F2)`. -/
def Chain.denote : (c : Chain ι ε σ ω) → TInvocation ι ε c.St c.Out
  | .leaf i mf cm => TInvocation.leaf i mf cm
  | .node l r => l.denote.pair r.denote

/-- The error of the first failing leaf of a chain in left-to-right order,
if any leaf fails. -/
def Chain.firstError : Chain ι ε σ ω → Option ε
  | .leaf _ mf _ =>
    match mf with
    | .error e => some e
    | .ok _ => none
  | .node l r =>
    match l.firstError with
    | some e => some e
    | none => r.firstError

/-- Claim C1: for every invocation whose fallible phase returns an error `e`
with side effects `tr`, `execute` returns exactly that error `e`, unchanged
and unwrapped, and the whole event log of `execute` is exactly the log of
`may_fail`: no effect of the commit phase occurs, so `commit` is never
invoked. -/
theorem execute_of_mayFail_error (inv : TInvocation ι ε σ ω) (e : ε)
    (tr : List (Event ι)) (h : inv.may_fail = (.error e, tr)) :
    inv.execute = (.error e, tr) := by
  simp [TInvocation.execute, h]

/-- Witness for C1 at a concrete failing leaf invocation. -/
theorem execute_of_mayFail_error_witness :
    (TInvocation.leaf 0 (Except.error 7) (fun s : Nat => s)).execute
      = (Except.error 7, [Event.mayFailCall 0]) :=
  execute_of_mayFail_error _ 7 [Event.mayFailCall 0] rfl

/-- Claim C2: for every invocation whose fallible phase succeeds with the
intermediate state `s` (and side effects `tr`), `execute` invokes `commit`
at `s`, returns success wrapping exactly the value `commit` returned, and
the event log is the log of `may_fail` followed by the log of one `commit`
call: `commit` runs exactly once, after `may_fail`. -/
theorem execute_of_mayFail_ok (inv : TInvocation ι ε σ ω) (s : σ)
    (tr : List (Event ι)) (h : inv.may_fail = (.ok s, tr)) :
    inv.execute = (.ok (inv.commit s).1, tr ++ (inv.commit s).2) := by
  simp [TInvocation.execute, h]

/-- Witness for C2 at a concrete succeeding leaf invocation. -/
theorem execute_of_mayFail_ok_witness :
    (TInvocation.leaf 0 (Except.ok 5 : Except Nat Nat) (fun s => s + 1)).execute
      = (Except.ok 6, [Event.mayFailCall 0] ++ [Event.commitCall 0]) :=
  execute_of_mayFail_ok _ 5 [Event.mayFailCall 0] rfl

/-- Claim C3: for every pair of invocations `(A, B)` with the same error
type, if the fallible phase of A fails with `e` (after effects `tr`), then
`may_fail` of the pair, and hence `execute` of the pair, returns exactly
`e`, and its whole event log is exactly the log of the `may_fail` of A: the
fallible phase of B is never attempted and neither commit runs. -/
theorem pair_short_circuit_first (A : TInvocation ι ε σ1 ω1)
    (B : TInvocation ι ε σ2 ω2) (e : ε) (tr : List (Event ι))
    (h : A.may_fail = (.error e, tr)) :
    (A.pair B).may_fail = (.error e, tr) ∧ (A.pair B).execute = (.error e, tr) := by
  have hmf : (A.pair B).may_fail = (.error e, tr) := by
    simp [TInvocation.pair, h]
  exact ⟨hmf, by simp [TInvocation.execute, hmf]⟩

/-- Witness for C3: a failing leaf paired with a succeeding leaf. -/
theorem pair_short_circuit_first_witness :
    ((TInvocation.leaf 0 (Except.error 9) (fun s : Nat => s)).pair
        (TInvocation.leaf 1 (Except.ok 2) (fun s : Nat => s))).execute
      = (Except.error 9, [Event.mayFailCall 0]) :=
  (pair_short_circuit_first _ _ 9 [Event.mayFailCall 0] rfl).2

/-- Claim C4: for every pair of invocations `(A, B)` with the same error
type, if the fallible phase of A succeeds with `s1` and the fallible phase
of B fails with `e`, then `execute` of the pair returns exactly `e`, the
already computed state `s1` is discarded, and the event log is exactly the
two `may_fail` logs in order: neither commit runs, so no mutation happens on
either side. -/
theorem pair_short_circuit_second (A : TInvocation ι ε σ1 ω1)
    (B : TInvocation ι ε σ2 ω2) (s1 : σ1) (trA trB : List (Event ι)) (e : ε)
    (hA : A.may_fail = (.ok s1, trA)) (hB : B.may_fail = (.error e, trB)) :
    (A.pair B).may_fail = (.error e, trA ++ trB) ∧
      (A.pair B).execute = (.error e, trA ++ trB) := by
  have hmf : (A.pair B).may_fail = (.error e, trA ++ trB) := by
    simp [TInvocation.pair, hA, hB]
  exact ⟨hmf, by simp [TInvocation.execute, hmf]⟩

/-- Witness for C4: a succeeding leaf paired with a failing leaf. -/
theorem pair_short_circuit_second_witness :
    ((TInvocation.leaf 0 (Except.ok 2) (fun s : Nat => s)).pair
        (TInvocation.leaf 1 (Except.error 9) (fun s : Nat => s))).execute
      = (Except.error 9, [Event.mayFailCall 0] ++ [Event.mayFailCall 1]) :=
  (pair_short_circuit_second _ _ 2 [Event.mayFailCall 0] [Event.mayFailCall 1]
    9 rfl rfl).2

/-- Claim C5: for every pair of invocations whose fallible phases succeed
with `s1` and `s2`, `may_fail` of the pair returns the pair `(s1, s2)` of
both intermediate states; `commit` of the pair commits both elements in
order, first then second, and returns the pair of both outputs; hence
`execute` of the pair returns success with the tuple of both outputs.  In
particular, pairing two `Constant` invocations executes to `Ok((42, 42))`. -/
theorem pair_success (A : TInvocation ι ε σ1 ω1) (B : TInvocation ι ε σ2 ω2)
    (s1 : σ1) (s2 : σ2) (trA trB : List (Event ι))
    (hA : A.may_fail = (.ok s1, trA)) (hB : B.may_fail = (.ok s2, trB)) :
    (A.pair B).may_fail = (.ok (s1, s2), trA ++ trB) ∧
      (∀ t1 t2, (A.pair B).commit (t1, t2)
        = (((A.commit t1).1, (B.commit t2).1), (A.commit t1).2 ++ (B.commit t2).2)) ∧
      (A.pair B).execute
        = (.ok ((A.commit s1).1, (B.commit s2).1),
            (trA ++ trB) ++ ((A.commit s1).2 ++ (B.commit s2).2)) ∧
      (Invocation.pair Constant Constant).execute = .ok (42, 42) := by
  have hmf : (A.pair B).may_fail = (.ok (s1, s2), trA ++ trB) := by
    simp [TInvocation.pair, hA, hB]
  refine ⟨hmf, fun t1 t2 => rfl, ?_, rfl⟩
  simp only [TInvocation.execute, hmf]
  simp [TInvocation.pair, List.append_assoc]

/-- Witness for C5: two concrete succeeding leaves. -/
theorem pair_success_witness :
    ((TInvocation.leaf 0 (Except.ok 2 : Except Nat Nat) (fun s => s + 1)).pair
        (TInvocation.leaf 1 (Except.ok 3 : Except Nat Nat) (fun s => s * 2))).execute
      = (Except.ok (3, 6),
          ([Event.mayFailCall 0] ++ [Event.mayFailCall 1])
            ++ ([Event.commitCall 0] ++ [Event.commitCall 1])) :=
  (pair_success _ _ 2 3 [Event.mayFailCall 0] [Event.mayFailCall 1]
    rfl rfl).2.2.1

/-- Claim C7: failure of `execute` can only originate in the fallible phase:
`execute` returns an error `e` exactly when `may_fail` returned that error
`e`, and `execute` returns an output `o` exactly when `may_fail` succeeded
with some state `s` and `commit s` is `o`.  The commit phase has no error
channel: by its type it returns the output directly, so the caller observes
either the complete output or the original error, and no third outcome. -/
theorem execute_error_iff_mayFail_error (inv : Invocation ε σ ω) :
    (∀ e, inv.execute = .error e ↔ inv.may_fail = .error e) ∧
      (∀ o, inv.execute = .ok o ↔ ∃ s, inv.may_fail = .ok s ∧ inv.commit s = o) := by
  constructor
  · intro e
    unfold Invocation.execute
    cases h : inv.may_fail <;> simp
  · intro o
    unfold Invocation.execute
    cases h : inv.may_fail <;> simp

/-- Witness for C7 at a concrete failing invocation. -/
theorem execute_error_iff_mayFail_error_witness :
    (Invocation.mk (ε := Nat) (Except.error 2) (fun s : Nat => s)).execute
      = Except.error 2 :=
  ((execute_error_iff_mayFail_error _).1 2).mpr rfl

/-- Claim C8: for every value `a`, including an owned text buffer, executing
the pass-through invocation `Identity a` returns success with exactly `a`;
in particular wrapping the text "Hello, World!" returns exactly it. -/
theorem identity_execute (a : α) :
    (Identity a).execute = .ok a ∧
      (Identity "Hello, World!").execute = .ok "Hello, World!" :=
  ⟨rfl, rfl⟩

/-- Witness for C8 at the concrete text of the repository test. -/
theorem identity_execute_witness :
    (Identity "Hello, World!").execute = Except.ok "Hello, World!" :=
  (identity_execute "Hello, World!").2

/-- Claim C10: for (pure) invocations F1 and F2 with the same error type,
executing the pair is determined by the individual executions: it succeeds
with `(o1, o2)` exactly when F1 executes to `o1` and F2 executes to `o2`;
it returns the error of F1 when the fallible phase of F1 fails; and it
returns the error of F2 when F1 succeeds and the fallible phase of F2
fails. -/
theorem pair_execute_determined (f1 : Invocation ε σ1 ω1)
    (f2 : Invocation ε σ2 ω2) :
    (∀ o1 o2, (f1.pair f2).execute = .ok (o1, o2) ↔
        f1.execute = .ok o1 ∧ f2.execute = .ok o2) ∧
      (∀ e, f1.may_fail = .error e → (f1.pair f2).execute = .error e) ∧
      (∀ s e, f1.may_fail = .ok s → f2.may_fail = .error e →
        (f1.pair f2).execute = .error e) := by
  refine ⟨?_, ?_, ?_⟩
  · intro o1 o2
    unfold Invocation.execute Invocation.pair
    cases h1 : f1.may_fail <;> cases h2 : f2.may_fail <;> simp
  · intro e h
    simp [Invocation.execute, Invocation.pair, h]
  · intro s e h1 h2
    simp [Invocation.execute, Invocation.pair, h1, h2]

/-- Witness for C10: both short-circuit branches at concrete invocations,
and the success equivalence at a concrete pair of outputs. -/
theorem pair_execute_determined_witness :
    ((Invocation.mk (ε := Nat) (Except.error 4) (fun s : Nat => s)).pair
        (Invocation.mk (Except.ok 1) (fun s : Nat => s))).execute
      = Except.error 4 ∧
    ((Invocation.mk (ε := Nat) (Except.ok 1) (fun s : Nat => s)).pair
        (Invocation.mk (Except.error 5) (fun s : Nat => s))).execute
      = Except.error 5 ∧
    ((Invocation.mk (ε := Nat) (Except.ok 1) (fun s : Nat => s)).pair
        (Invocation.mk (Except.ok 2) (fun s : Nat => s))).execute
      = Except.ok (1, 2) :=
  ⟨(pair_execute_determined _ _).2.1 4 rfl,
   (pair_execute_determined _ _).2.2 1 5 rfl rfl,
   ((pair_execute_determined _ _).1 1 2).2 ⟨rfl, rfl⟩⟩

/-- If no leaf of a chain fails, the fallible phase of the denoted
invocation succeeds and its log is one `may_fail` call per leaf, in
left-to-right order. -/
theorem denote_mayFail_ok (c : Chain ι ε σ ω) (h : c.firstError = none) :
    ∃ s, c.denote.may_fail = (.ok s, c.labels.map Event.mayFailCall) := by
  induction c with
  | leaf i mf cm =>
    cases mf with
    | error e => simp [Chain.firstError] at h
    | ok s => exact ⟨s, rfl⟩
  | node l r ihl ihr =>
    cases hl : l.firstError with
    | some e => simp [Chain.firstError, hl] at h
    | none =>
      have hr : r.firstError = none := by
        simpa [Chain.firstError, hl] using h
      obtain ⟨s1, h1⟩ := ihl hl
      obtain ⟨s2, h2⟩ := ihr hr
      refine ⟨(s1, s2), ?_⟩
      show (l.denote.pair r.denote).may_fail = _
      simp [TInvocation.pair, h1, h2, Chain.labels]

/-- If some leaf of a chain fails, the fallible phase of the denoted
invocation returns the error of the first failing leaf, and its log is one
`may_fail` call per leaf of an initial segment of the chain ending at that
leaf. -/
theorem denote_mayFail_error (c : Chain ι ε σ ω) (e : ε)
    (h : c.firstError = some e) :
    ∃ p q, c.labels = p ++ q ∧
      c.denote.may_fail = (.error e, p.map Event.mayFailCall) := by
  induction c with
  | leaf i mf cm =>
    cases mf with
    | error e2 =>
      have he : e2 = e := by simpa [Chain.firstError] using h
      exact ⟨[i], [], rfl, by simp [Chain.denote, TInvocation.leaf, he]⟩
    | ok s => simp [Chain.firstError] at h
  | node l r ihl ihr =>
    cases hl : l.firstError with
    | some e2 =>
      have he : e2 = e := by simpa [Chain.firstError, hl] using h
      subst he
      obtain ⟨p, q, hpq, hmf⟩ := ihl hl
      refine ⟨p, q ++ r.labels, by simp [Chain.labels, hpq], ?_⟩
      show (l.denote.pair r.denote).may_fail = _
      simp [TInvocation.pair, hmf]
    | none =>
      have hr : r.firstError = some e := by
        simpa [Chain.firstError, hl] using h
      obtain ⟨s1, h1⟩ := denote_mayFail_ok l hl
      obtain ⟨p, q, hpq, hmf⟩ := ihr hr
      refine ⟨l.labels ++ p, q, by simp [Chain.labels, hpq], ?_⟩
      show (l.denote.pair r.denote).may_fail = _
      simp [TInvocation.pair, h1, hmf]

/-- The commit phase of a denoted chain logs one `commit` call per leaf, in
left-to-right order, whatever the intermediate state. -/
theorem denote_commit_trace (c : Chain ι ε σ ω) (s : c.St) :
    (c.denote.commit s).2 = c.labels.map Event.commitCall := by
  induction c with
  | leaf i mf cm => rfl
  | node l r ihl ihr =>
    obtain ⟨s1, s2⟩ := s
    show ((l.denote.pair r.denote).commit (s1, s2)).2 = _
    simp [TInvocation.pair, ihl, ihr, Chain.labels]

/-- Claim C6: a nested pair of invocations is itself an invocation built by
the same tuple combinator (`Chain.denote` sends every node to the pairing
combinator), and executing it is all-or-nothing.  If some leaf fails, the
error of the first failing leaf in left-to-right order is returned and the
event log holds no `commit` call of any leaf; if every leaf succeeds, the
result is a success and the log ends with exactly one `commit` call per
leaf — never a strict, partial subset of the commits. -/
theorem chain_execute_all_or_nothing (c : Chain ι ε σ ω) :
    (∀ e, c.firstError = some e →
      (c.denote.execute.1 = Except.error e ∧
        ∀ i, Event.commitCall i ∉ c.denote.execute.2)) ∧
      (c.firstError = none →
        ((∃ o, c.denote.execute.1 = Except.ok o) ∧
          c.denote.execute.2
            = c.labels.map Event.mayFailCall ++ c.labels.map Event.commitCall)) := by
  constructor
  · intro e h
    obtain ⟨p, q, hpq, hmf⟩ := denote_mayFail_error c e h
    have hex : c.denote.execute = (.error e, p.map Event.mayFailCall) := by
      simp [TInvocation.execute, hmf]
    rw [hex]
    refine ⟨rfl, fun i hi => ?_⟩
    simp only [List.mem_map] at hi
    obtain ⟨j, _, hj⟩ := hi
    exact Event.noConfusion hj
  · intro h
    obtain ⟨s, hmf⟩ := denote_mayFail_ok c h
    have hex : c.denote.execute
        = (.ok (c.denote.commit s).1,
            c.labels.map Event.mayFailCall ++ (c.denote.commit s).2) := by
      simp [TInvocation.execute, hmf]
    rw [hex, denote_commit_trace]
    exact ⟨⟨(c.denote.commit s).1, rfl⟩, rfl⟩

/-- Witness for C6: a chain with a failing leaf returns that error, and a
chain of two succeeding leaves logs both commits. -/
theorem chain_execute_all_or_nothing_witness :
    (Chain.node (Chain.leaf 0 (Except.error 3) (fun s => s))
        (Chain.leaf 1 (Except.ok 2) (fun s => s))
      : Chain Nat Nat Nat Nat).denote.execute.1 = Except.error 3 ∧
    (Chain.node (Chain.leaf 0 (Except.ok 1) (fun s => s))
        (Chain.leaf 1 (Except.ok 2) (fun s => s))
      : Chain Nat Nat Nat Nat).denote.execute.2
      = [0, 1].map Event.mayFailCall ++ [0, 1].map Event.commitCall :=
  ⟨((chain_execute_all_or_nothing
      (Chain.node (Chain.leaf 0 (Except.error 3) (fun s => s))
        (Chain.leaf 1 (Except.ok 2) (fun s => s)))).1 3 rfl).1,
   ((chain_execute_all_or_nothing
      (Chain.node (Chain.leaf 0 (Except.ok 1) (fun s => s))
        (Chain.leaf 1 (Except.ok 2) (fun s => s)))).2 rfl).2⟩

/-- Counting a `may_fail` call in a list of `may_fail` calls counts the
label. -/
theorem count_mayFailCall_map [DecidableEq ι] (l : List ι) (i : ι) :
    (l.map Event.mayFailCall).count (Event.mayFailCall i) = l.count i := by
  induction l with
  | nil => rfl
  | cons a l ih => simp [List.count_cons, ih]

/-- Counting a `commit` call in a list of `commit` calls counts the label. -/
theorem count_commitCall_map [DecidableEq ι] (l : List ι) (i : ι) :
    (l.map Event.commitCall).count (Event.commitCall i) = l.count i := by
  induction l with
  | nil => rfl
  | cons a l ih => simp [List.count_cons, ih]

/-- No `commit` call occurs in a list of `may_fail` calls. -/
theorem count_commitCall_map_mayFail [DecidableEq ι] (l : List ι) (i : ι) :
    (l.map Event.mayFailCall).count (Event.commitCall i) = 0 := by
  induction l with
  | nil => rfl
  | cons a l ih => simp [List.count_cons, ih]

/-- No `may_fail` call occurs in a list of `commit` calls. -/
theorem count_mayFailCall_map_commit [DecidableEq ι] (l : List ι) (i : ι) :
    (l.map Event.commitCall).count (Event.mayFailCall i) = 0 := by
  induction l with
  | nil => rfl
  | cons a l ih => simp [List.count_cons, ih]

/-- Claim C9: executing a possibly nested pair whose constituents carry
distinct labels calls the `may_fail` of each constituent at most once and
its `commit` at most once; the event log splits into a block of `may_fail`
calls followed by a block of `commit` calls, so every `may_fail` call that
happens completes before any `commit` call starts; and the `commit` block,
when present, lists the constituents exactly in left-to-right order. -/
theorem chain_execute_call_discipline [DecidableEq ι] (c : Chain ι ε σ ω)
    (hnd : c.labels.Nodup) :
    (∀ i, c.denote.execute.2.count (Event.mayFailCall i) ≤ 1) ∧
      (∀ i, c.denote.execute.2.count (Event.commitCall i) ≤ 1) ∧
      (∃ mfs cms, c.denote.execute.2 = mfs ++ cms ∧
        (∀ ev ∈ mfs, ∃ i, ev = Event.mayFailCall i) ∧
        (cms = [] ∨ cms = c.labels.map Event.commitCall)) := by
  have hcount : ∀ i, c.labels.count i ≤ 1 :=
    List.nodup_iff_count_le_one.mp hnd
  cases hfe : c.firstError with
  | some e =>
    obtain ⟨p, q, hpq, hmf⟩ := denote_mayFail_error c e hfe
    have hex : c.denote.execute = (.error e, p.map Event.mayFailCall) := by
      simp [TInvocation.execute, hmf]
    rw [hex]
    refine ⟨fun i => ?_, fun i => ?_, p.map Event.mayFailCall, [], by simp,
      fun ev hev => ?_, Or.inl rfl⟩
    · rw [count_mayFailCall_map]
      calc p.count i ≤ (p ++ q).count i := by
            rw [List.count_append]; exact Nat.le_add_right _ _
        _ = c.labels.count i := by rw [hpq]
        _ ≤ 1 := hcount i
    · simp [count_commitCall_map_mayFail]
    · obtain ⟨j, _, hj⟩ := List.mem_map.mp hev
      exact ⟨j, hj.symm⟩
  | none =>
    obtain ⟨s, hmf⟩ := denote_mayFail_ok c hfe
    have hex : c.denote.execute
        = (.ok (c.denote.commit s).1,
            c.labels.map Event.mayFailCall ++ c.labels.map Event.commitCall) := by
      simp [TInvocation.execute, hmf, denote_commit_trace]
    rw [hex]
    refine ⟨fun i => ?_, fun i => ?_,
      c.labels.map Event.mayFailCall, c.labels.map Event.commitCall, rfl,
      fun ev hev => ?_, Or.inr rfl⟩
    · rw [List.count_append, count_mayFailCall_map, count_mayFailCall_map_commit]
      simpa using hcount i
    · rw [List.count_append, count_commitCall_map, count_commitCall_map_mayFail]
      simpa using hcount i
    · obtain ⟨j, _, hj⟩ := List.mem_map.mp hev
      exact ⟨j, hj.symm⟩

/-- Witness for C9 at a concrete two-leaf chain with distinct labels. -/
theorem chain_execute_call_discipline_witness :
    ((Chain.node (Chain.leaf 0 (Except.ok 1) (fun s => s))
        (Chain.leaf 1 (Except.ok 2) (fun s => s))
      : Chain Nat Nat Nat Nat).labels.Nodup) ∧
    ((∀ i, (Chain.node (Chain.leaf 0 (Except.ok 1) (fun s => s))
          (Chain.leaf 1 (Except.ok 2) (fun s => s))
        : Chain Nat Nat Nat Nat).denote.execute.2.count (Event.mayFailCall i) ≤ 1) ∧
      (∀ i, (Chain.node (Chain.leaf 0 (Except.ok 1) (fun s => s))
            (Chain.leaf 1 (Except.ok 2) (fun s => s))
          : Chain Nat Nat Nat Nat).denote.execute.2.count (Event.commitCall i) ≤ 1) ∧
      (∃ mfs cms,
        (Chain.node (Chain.leaf 0 (Except.ok 1) (fun s => s))
            (Chain.leaf 1 (Except.ok 2) (fun s => s))
          : Chain Nat Nat Nat Nat).denote.execute.2 = mfs ++ cms ∧
        (∀ ev ∈ mfs, ∃ i, ev = Event.mayFailCall i) ∧
        (cms = [] ∨ cms = (Chain.node (Chain.leaf 0 (Except.ok 1) (fun s => s))
            (Chain.leaf 1 (Except.ok 2) (fun s => s))
          : Chain Nat Nat Nat Nat).labels.map Event.commitCall))) :=
  ⟨by decide,
   chain_execute_call_discipline
     (Chain.node (Chain.leaf 0 (Except.ok 1) (fun s => s))
       (Chain.leaf 1 (Except.ok 2) (fun s => s))) (by decide)⟩

end StrongFunction
